import Mathlib

/-!
Verification of the redirect-table computation of `sphinx-seo-redirect`
(`sphinx_seo_redirect/sphinx.py`).

Python `dict`s preserve insertion order and have unique keys; they are
embedded as association lists `List (String × α)` together with the
operations `dictGet` (subscript read), `dictSet` (subscript write:
update in place when the key exists, append otherwise) and `dictMem`
(the `in` operator).  Python string helpers used by the code
(`str.split("#")`, `str.removesuffix`, `str.removeprefix`,
`str.startswith`, `str.rstrip(",")`) are embedded as executable
functions on the underlying character lists.  Calls to
`logger.warning` are embedded as values of the inductive `Warning`
accumulated alongside the computed map.
-/

namespace SeoRedirect

/-! ## Python string primitives -/

/-- Python `s.removesuffix(suf)`: drop `suf` from the end of `s` when `s`
ends with it, otherwise return `s` unchanged. -/
def pyRemovesuffix (s suf : String) : String :=
  if suf.data.isSuffixOf s.data then
    String.mk (s.data.take (s.data.length - suf.data.length))
  else s

/-- Python `s.removeprefix(pre)`: drop `pre` from the front of `s` when `s`
starts with it, otherwise return `s` unchanged. -/
def removePre (s pre : String) : String :=
  if pre.data.isPrefixOf s.data then String.mk (s.data.drop pre.data.length) else s

/-- Python `s.startswith(pre)`. -/
def pyStartswith (s pre : String) : Bool :=
  pre.data.isPrefixOf s.data

/-- Python `s.rstrip(",")`: remove every trailing comma. -/
def rstripCommas (s : String) : String :=
  String.mk ((s.data.reverse.dropWhile (fun c => c = ',')).reverse)

/-- Splitting a character list on `'#'`, mirroring Python `str.split("#")`
(which never returns an empty list; splitting the empty string yields
one empty group). -/
def splitChars : List Char → List (List Char)
  | [] => [[]]
  | c :: rest =>
    if c = '#' then [] :: splitChars rest
    else
      match splitChars rest with
      | [] => [[c]]
      | g :: gs => (c :: g) :: gs

/-- Python `source.split("#")`. -/
def splitHash (s : String) : List String :=
  (splitChars s.data).map (fun cs => String.mk cs)

/-- Number of `'#'` characters in a string. -/
def countHash (s : String) : Nat :=
  s.data.count '#'

/-! ## Python dict primitives -/

/-- Python `d[k]` as an `Option` (`none` when the key is absent). -/
def dictGet {α : Type} : List (String × α) → String → Option α
  | [], _ => none
  | (k, v) :: rest, key => if k = key then some v else dictGet rest key

/-- `dictGet` with a default value. -/
def dictGetD {α : Type} (d : List (String × α)) (key : String) (dflt : α) : α :=
  (dictGet d key).getD dflt

/-- Python `k in d`. -/
def dictMem {α : Type} (d : List (String × α)) (key : String) : Bool :=
  (dictGet d key).isSome

/-- Python `d[k] = v`: replace the value of the first entry with key `k`,
or append a new entry at the end (insertion order is preserved, as in
Python dicts). -/
def dictSet {α : Type} : List (String × α) → String → α → List (String × α)
  | [], k, v => [(k, v)]
  | (k', v') :: rest, k, v =>
    if k' = k then (k, v) :: rest else (k', v') :: dictSet rest k v

/-! ## Constants from `sphinx.py` -/

def DEFAULT_PAGE : String := "-"

def CTX_FRAGMENT_REDIRECTS : String := "fragment_redirects"

def CTX_HAS_FRAGMENT_REDIRECTS : String := "has_fragment_redirects"

/-- A warning issued through `logger.warning` during `compute_redirects`. -/
inductive Warning : Type where
  /-- "compute_redirects(): invalid redirect: %s" (more than one `#`). -/
  | invalidRedirect (source : String)
  /-- "compute_redirects(): empty page name: %s". -/
  | emptyPageName (source : String)
  /-- "compute_redirects(): empty target for source %s". -/
  | emptyTarget (source : String)
deriving DecidableEq

/-- The mutable state of `compute_redirects`: the `redirects_option`
dict passed by the caller (threaded to record that it is never
written), the `computed_redirects` dict under construction, and the
warnings issued so far. -/
structure ComputeState : Type where
  ropt : List (String × String)
  computed : List (String × List (String × String))
  warns : List Warning
deriving DecidableEq

/-- Body of the `for source in redirects_option.keys()` loop of
`compute_redirects` after the `source.split("#")` match: validation of
the page name, creation of the per-page dict, base-URL stripping of the
target fetched from `redirects_option`, path-prefix rewriting, and the
store under the fragment key (`DEFAULT_PAGE` when there is no
fragment).  `bu` and `up` are `html_baseurl` and `url_path_prefix`
already stripped of a trailing `/`. -/
def processEntry (bu up : String) (st : ComputeState)
    (source pagename fragment : String) : ComputeState :=
  if pagename = "" then
    { st with warns := st.warns ++ [Warning.emptyPageName source] }
  else
    let computed :=
      if dictMem st.computed pagename then st.computed
      else dictSet st.computed pagename []
    let target := removePre ((dictGet st.ropt source).getD "") bu
    if target = "" then
      { st with computed := computed,
                warns := st.warns ++ [Warning.emptyTarget source] }
    else
      let target := if up ≠ "" ∧ pyStartswith target "/" then up ++ target else target
      let key := if fragment = "" then DEFAULT_PAGE else fragment
      { st with computed :=
          dictSet computed pagename (dictSet (dictGetD computed pagename []) key target) }

/-- One iteration of the `compute_redirects` loop: split the source on
`#`; with two tokens the fragment is kept (a trailing `.html` removed),
with one token there is no fragment, otherwise the entry is invalid and
only a warning is recorded. -/
def computeStep (bu up : String) (st : ComputeState) (source : String) : ComputeState :=
  match splitHash source with
  | [t0, t1] =>
    processEntry bu up st source (pyRemovesuffix t0 ".html") (pyRemovesuffix t1 ".html")
  | [t0] =>
    processEntry bu up st source (pyRemovesuffix t0 ".html") ""
  | _ => { st with warns := st.warns ++ [Warning.invalidRedirect source] }

/-- `compute_redirects(app, redirects_option)`: strip a trailing `/`
from `html_baseurl` and `url_path_prefix` (`up0` below), run the loop over
the keys of `redirects_option`, then drop every page whose per-page dict
stayed empty. -/
def compute_redirects (html_baseurl up0 : String)
    (redirects_option : List (String × String)) : ComputeState :=
  let bu := pyRemovesuffix html_baseurl "/"
  let up := pyRemovesuffix up0 "/"
  let st := (redirects_option.map Prod.fst).foldl (computeStep bu up)
    ⟨redirects_option, [], []⟩
  { st with computed := st.computed.filter (fun e => !e.2.isEmpty) }

/-- `build_js_object(pagemap)`: accumulate `"frag":"target",` pairs after
the `Object.freeze({` header, then `rstrip(",")` and close with `});`. -/
def build_js_object (pagemap : List (String × String)) : String :=
  let jsobject := pagemap.foldl
    (fun acc e => acc ++ "\"" ++ e.1 ++ "\":\"" ++ e.2 ++ "\",")
    ("const " ++ CTX_FRAGMENT_REDIRECTS ++ " = Object.freeze(\x7b")
  rstripCommas jsobject ++ "\x7d);"

/-- `builder_inited(app)`: the `redirects-enabled` flag it stores on the
environment.  `none` models a `redirects` config value of `None`; the
extension is disabled when the option is falsy (`None` or the empty
dict, the registered default) and, in a second dead check, when its
length is zero. -/
def builder_inited_enabled (redirects_config : Option (List (String × String))) : Bool :=
  match redirects_config with
  | none => false
  | some l => if l.isEmpty then false else if l.length = 0 then false else true

/-- The `intra_page_fragments` list built by `env_updated`: the pages of
the computed redirect map that are documents of the build
(`page in env.all_docs`), in map order. -/
def env_updated_intra (computed : List (String × List (String × String)))
    (all_docs : List String) : List String :=
  (computed.map Prod.fst).filter (fun page => decide (page ∈ all_docs))

/-- `env_updated(app, env)`: returns its (always empty) return value
together with the pair stored on the environment (`computed-redirects`
and `intra-page-fragment-pages`), or `none` when the extension is
disabled and nothing is stored. -/
def env_updated (enabled : Bool) (html_baseurl up0 : String)
    (redirects_option : List (String × String)) (all_docs : List String) :
    List String × Option (List (String × List (String × String)) × List String) :=
  if !enabled then ([], none)
  else
    let computed := (compute_redirects html_baseurl up0 redirects_option).computed
    ([], some (computed, env_updated_intra computed all_docs))

/-- A value of the HTML page context dict (only booleans and strings are
stored by this extension). -/
inductive CtxVal : Type where
  | bval (b : Bool)
  | sval (s : String)
deriving DecidableEq

/-- `html_page_context(app, pagename, templatename, context, doctree)`:
returns the template name and the context dict after mutation.  When
enabled it sets `has_fragment_redirects` to `False`, and for a page of
the intra-page list it adds the JS object of the page's computed
redirects under `fragment_redirects` and flips
`has_fragment_redirects` to `True`. -/
def html_page_context (enabled : Bool) (intra : List String)
    (computed : List (String × List (String × String)))
    (pagename templatename : String) (context : List (String × CtxVal)) :
    String × List (String × CtxVal) :=
  if !enabled then (templatename, context)
  else
    let context := dictSet context CTX_HAS_FRAGMENT_REDIRECTS (CtxVal.bval false)
    if pagename ∈ intra then
      let context := dictSet context CTX_FRAGMENT_REDIRECTS
        (CtxVal.sval (build_js_object (dictGetD computed pagename [])))
      let context := dictSet context CTX_HAS_FRAGMENT_REDIRECTS (CtxVal.bval true)
      (templatename, context)
    else (templatename, context)

/-- Result of `html_collect_pages`: the returned list of redirect pages
(each `(pagename, context, templatename)` with the single-entry context
embedded as a key-value pair), the `computed-redirects` dict after the
mutations done by the loop, and the `extensionless_pages` list. -/
structure CollectState : Type where
  pages : List (String × (String × String) × String)
  computed : List (String × List (String × String))
  ext : List String
deriving DecidableEq

/-- Body of the `for page in computed_redirects.keys()` loop of
`html_collect_pages`: skip pages that are documents of the build; emit a
`simpleredirect.html` page when the page has exactly one redirect and it
is the `DEFAULT_PAGE` one; otherwise, when the page has exactly one
redirect under another fragment and its target is non-empty, first add a
`DEFAULT_PAGE` entry with the same target, then emit a `redirect.html`
page carrying the JS object of the page's (possibly augmented) dict. -/
def collectStep (all_docs : List String) (writeExt : Bool)
    (st : CollectState) (page : String) : CollectState :=
  if page ∈ all_docs then st
  else
    let inner := dictGetD st.computed page []
    if inner.length = 1 ∧ dictMem inner DEFAULT_PAGE = true then
      { pages := st.pages ++
          [(page, ("to_uri", (dictGet inner DEFAULT_PAGE).getD ""), "simpleredirect.html")],
        computed := st.computed,
        ext := if writeExt then st.ext ++ [page] else st.ext }
    else
      let computed :=
        if inner.length = 1 then
          let defaultPageUrl := (inner.headD ("", "")).2
          if defaultPageUrl ≠ "" then
            dictSet st.computed page (dictSet inner DEFAULT_PAGE defaultPageUrl)
          else st.computed
        else st.computed
      { pages := st.pages ++
          [(page, (CTX_FRAGMENT_REDIRECTS, build_js_object (dictGetD computed page [])),
            "redirect.html")],
        computed := computed,
        ext := if writeExt then st.ext ++ [page] else st.ext }

/-- `html_collect_pages(app)`: an empty result when the extension is
disabled, otherwise the fold of `collectStep` over the keys of the
computed redirect map (the loop only ever mutates inner dicts, so the
key list is fixed). -/
def html_collect_pages (enabled writeExt : Bool) (all_docs : List String)
    (computed : List (String × List (String × String))) : CollectState :=
  if !enabled then ⟨[], computed, []⟩
  else (computed.map Prod.fst).foldl (collectStep all_docs writeExt) ⟨[], computed, []⟩

/-! ## Statement-side helpers

These name the pieces of `compute_redirects` that the specification
talks about, so that claims can be stated on an arbitrary configuration
entry. -/

/-- The page part of a redirect source: the text before the first `#`
with a trailing `.html` removed (`tokens[0].removesuffix(".html")`). -/
def pageOf (s : String) : String :=
  pyRemovesuffix ((splitHash s).headD "") ".html"

/-- The fragment part of a redirect source with a trailing `.html`
removed; empty when the source has no `#` (or is malformed). -/
def fragOf (s : String) : String :=
  match splitHash s with
  | [_, f] => pyRemovesuffix f ".html"
  | _ => ""

/-- The key under which a redirect source is stored in its page's inner
map: the stripped fragment when non-empty, else `DEFAULT_PAGE`. -/
def keyOf (s : String) : String :=
  if fragOf s = "" then DEFAULT_PAGE else fragOf s

/-- Modelled from the spec claim wording for target normalization: if the
target starts with `html_baseurl` (trailing `/` removed) that prefix is
removed; afterwards, if `url_path_prefix` (trailing `/` removed, `up0`
below) is non-empty and the result starts with `/`, it is prepended. -/
def normTargetSpec (html_baseurl up0 t : String) : String :=
  let bu := pyRemovesuffix html_baseurl "/"
  let up := pyRemovesuffix up0 "/"
  let t1 := removePre t bu
  if up ≠ "" ∧ pyStartswith t1 "/" then up ++ t1 else t1

/-- The inner map of a page as it stands when `html_collect_pages` emits
its `redirect.html` tuple: when the page holds exactly one redirect,
under a fragment other than `DEFAULT_PAGE` and with a non-empty target,
a `DEFAULT_PAGE` entry with the same target has been appended. -/
def augmentInner (inner : List (String × String)) : List (String × String) :=
  if inner.length = 1 ∧ dictMem inner DEFAULT_PAGE = false ∧ (inner.headD ("", "")).2 ≠ "" then
    dictSet inner DEFAULT_PAGE (inner.headD ("", "")).2
  else inner

/-- The pair string `"key":"value"` of one entry of the JS object
emitted by `build_js_object` (spec-side). -/
def jsPairSpec (e : String × String) : String :=
  "\"" ++ e.1 ++ "\":\"" ++ e.2 ++ "\""

/-- Comma-separated join with no trailing comma (spec-side description
of the body of the JS object literal). -/
def joinComma : List String → String
  | [] => ""
  | [p] => p
  | p :: rest => p ++ ("," ++ joinComma rest)

/-! ## Association-list (Python dict) lemmas -/

theorem dictGet_dictSet_self {α : Type} (d : List (String × α)) (k : String) (v : α) :
    dictGet (dictSet d k v) k = some v := by
  induction d with
  | nil => simp [dictSet, dictGet]
  | cons e rest ih =>
    obtain ⟨k', v'⟩ := e
    by_cases h : k' = k
    · subst h; simp [dictSet, dictGet]
    · simp [dictSet, dictGet, h, ih]

theorem dictGet_dictSet_ne {α : Type} (d : List (String × α)) {k k' : String} (v : α)
    (h : k' ≠ k) : dictGet (dictSet d k v) k' = dictGet d k' := by
  induction d with
  | nil => simp [dictSet, dictGet, Ne.symm h]
  | cons e rest ih =>
    obtain ⟨q, w⟩ := e
    by_cases h2 : q = k
    · subst h2; simp [dictSet, dictGet, Ne.symm h]
    · simp only [dictSet, if_neg h2, dictGet, ih]

theorem mem_of_dictGet {α : Type} {d : List (String × α)} {k : String} {v : α}
    (h : dictGet d k = some v) : (k, v) ∈ d := by
  induction d with
  | nil => simp [dictGet] at h
  | cons e rest ih =>
    obtain ⟨k', v'⟩ := e
    simp only [dictGet] at h
    by_cases h2 : k' = k
    · rw [if_pos h2] at h
      obtain rfl : v' = v := by injection h
      subst h2
      exact List.mem_cons_self _ _
    · rw [if_neg h2] at h
      exact List.mem_cons_of_mem _ (ih h)

theorem dictGet_isSome_iff {α : Type} (d : List (String × α)) (k : String) :
    (dictGet d k).isSome = true ↔ k ∈ d.map Prod.fst := by
  induction d with
  | nil => simp [dictGet]
  | cons e rest ih =>
    obtain ⟨k', v'⟩ := e
    simp only [dictGet, List.map_cons, List.mem_cons]
    by_cases h2 : k' = k
    · subst h2; simp
    · rw [if_neg h2]
      constructor
      · intro hh; exact Or.inr (ih.mp hh)
      · rintro (hh | hh)
        · exact absurd hh.symm h2
        · exact ih.mpr hh

theorem dictGet_of_mem_nodup {α : Type} {d : List (String × α)} {k : String} {v : α}
    (hm : (k, v) ∈ d) (hnd : (d.map Prod.fst).Nodup) : dictGet d k = some v := by
  induction d with
  | nil => simp at hm
  | cons e rest ih =>
    obtain ⟨k', v'⟩ := e
    simp only [List.map_cons, List.nodup_cons] at hnd
    rcases List.mem_cons.mp hm with h | h
    · rw [Prod.ext_iff] at h
      obtain ⟨h1, h2⟩ := h
      simp only at h1 h2
      subst h1; subst h2
      simp [dictGet]
    · have hk : k' ≠ k := by
        intro he; subst he
        exact hnd.1 (List.mem_map.mpr ⟨(k', v), h, rfl⟩)
      simp [dictGet, hk, ih h hnd.2]

theorem mem_dictSet {α : Type} {d : List (String × α)} {k : String} {v : α}
    {x : String × α} (h : x ∈ dictSet d k v) : x ∈ d ∨ x = (k, v) := by
  induction d with
  | nil => simp [dictSet] at h; right; exact h
  | cons e rest ih =>
    obtain ⟨k', v'⟩ := e
    by_cases h2 : k' = k
    · subst h2
      simp only [dictSet, if_pos rfl] at h
      rcases List.mem_cons.mp h with h | h
      · right; exact h
      · left; exact List.mem_cons_of_mem _ h
    · simp only [dictSet, if_neg h2] at h
      rcases List.mem_cons.mp h with h | h
      · left; exact h ▸ List.mem_cons_self _ _
      · rcases ih h with h | h
        · left; exact List.mem_cons_of_mem _ h
        · right; exact h

theorem keys_dictSet {α : Type} (d : List (String × α)) (k : String) (v : α) :
    (dictSet d k v).map Prod.fst =
      if dictMem d k then d.map Prod.fst else d.map Prod.fst ++ [k] := by
  induction d with
  | nil => simp [dictSet, dictMem, dictGet]
  | cons e rest ih =>
    obtain ⟨q, w⟩ := e
    by_cases h2 : q = k
    · subst h2; simp [dictSet, dictMem, dictGet]
    · simp only [dictSet, if_neg h2, List.map_cons, ih, dictMem, dictGet]
      split <;> simp

theorem nodup_keys_dictSet {α : Type} {d : List (String × α)} (k : String) (v : α)
    (h : (d.map Prod.fst).Nodup) : ((dictSet d k v).map Prod.fst).Nodup := by
  rw [keys_dictSet]
  split
  · exact h
  · rename_i hmem
    have hk : k ∉ d.map Prod.fst := by
      intro hin
      exact hmem ((dictGet_isSome_iff d k).mpr hin)
    simp [List.nodup_append, h, hk]

theorem dictGet_filter_nonempty {α : Type} {d : List (String × List α)} {p : String}
    {inner : List α} (h : dictGet d p = some inner) (hne : inner ≠ []) :
    dictGet (d.filter (fun e => !e.2.isEmpty)) p = some inner := by
  induction d with
  | nil => simp [dictGet] at h
  | cons e rest ih =>
    obtain ⟨q, w⟩ := e
    simp only [dictGet] at h
    by_cases h2 : q = p
    · rw [if_pos h2] at h
      obtain rfl : w = inner := by injection h
      have hw : w.isEmpty = false := by
        cases w with
        | nil => exact absurd rfl hne
        | cons a l => rfl
      subst h2
      simp [List.filter_cons, hw, dictGet]
    · rw [if_neg h2] at h
      rw [List.filter_cons]
      split
      · simp [dictGet, h2, ih h]
      · exact ih h

theorem dictGet_append_of_not_mem {α : Type} {d₁ : List (String × α)}
    (d₂ : List (String × α)) {k : String} (h : k ∉ d₁.map Prod.fst) :
    dictGet (d₁ ++ d₂) k = dictGet d₂ k := by
  induction d₁ with
  | nil => rfl
  | cons e rest ih =>
    obtain ⟨k', v'⟩ := e
    simp only [List.map_cons, List.mem_cons] at h
    push_neg at h
    have : k' ≠ k := fun hh => h.1 (hh ▸ rfl)
    simp [dictGet, this, ih h.2]

theorem dictGet_filter_key_ne {α : Type} (l : List (String × α)) {k s : String}
    (h : k ≠ s) : dictGet (l.filter (fun e => !(e.1 == s))) k = dictGet l k := by
  induction l with
  | nil => rfl
  | cons e rest ih =>
    obtain ⟨k', v'⟩ := e
    by_cases h2 : k' = s
    · subst h2
      have : k' ≠ k := fun hh => h (hh ▸ rfl)
      simp [List.filter_cons, dictGet, this, ih]
    · simp [List.filter_cons, h2, dictGet, ih]

/-! ## Lemmas about splitting on `#` -/

theorem splitChars_ne_nil (l : List Char) : splitChars l ≠ [] := by
  induction l with
  | nil => simp [splitChars]
  | cons c rest ih =>
    simp only [splitChars]
    split
    · simp
    · split
      · simp
      · simp

theorem splitChars_length (l : List Char) : (splitChars l).length = l.count '#' + 1 := by
  induction l with
  | nil => simp [splitChars]
  | cons c rest ih =>
    simp only [splitChars]
    by_cases hc : c = '#'
    · subst hc
      rw [if_pos rfl]
      simp only [List.length_cons, ih, List.count_cons]
      simp
    · rw [if_neg hc]
      cases hsc : splitChars rest with
      | nil => exact absurd hsc (splitChars_ne_nil rest)
      | cons g gs =>
        rw [hsc] at ih
        simp only [List.length_cons] at ih
        simp only [List.length_cons, ih, List.count_cons]
        simp [hc]

theorem splitHash_ne_nil (s : String) : splitHash s ≠ [] := by
  simp [splitHash, List.map_eq_nil_iff, splitChars_ne_nil]

theorem splitHash_length (s : String) : (splitHash s).length = countHash s + 1 := by
  simp [splitHash, countHash, splitChars_length]

theorem splitHash_shape_le_one {s : String} (h : countHash s ≤ 1) :
    (∃ a, splitHash s = [a]) ∨ ∃ a b, splitHash s = [a, b] := by
  have hl := splitHash_length s
  rcases hsp : splitHash s with _ | ⟨a, _ | ⟨b, _ | ⟨c, rest⟩⟩⟩
  · exact absurd hsp (splitHash_ne_nil s)
  · exact Or.inl ⟨a, rfl⟩
  · exact Or.inr ⟨a, b, rfl⟩
  · rw [hsp] at hl; simp at hl; omega

theorem splitHash_shape_ge_two {s : String} (h : 2 ≤ countHash s) :
    ∃ a b c rest, splitHash s = a :: b :: c :: rest := by
  have hl := splitHash_length s
  rcases hsp : splitHash s with _ | ⟨a, _ | ⟨b, _ | ⟨c, rest⟩⟩⟩
  · exact absurd hsp (splitHash_ne_nil s)
  · rw [hsp] at hl; simp at hl; omega
  · rw [hsp] at hl; simp at hl; omega
  · exact ⟨a, b, c, rest, rfl⟩

theorem pageOf_of_one {s a : String} (h : splitHash s = [a]) :
    pageOf s = pyRemovesuffix a ".html" := by
  simp [pageOf, h]

theorem pageOf_of_two {s a b : String} (h : splitHash s = [a, b]) :
    pageOf s = pyRemovesuffix a ".html" := by
  simp [pageOf, h]

theorem fragOf_of_one {s a : String} (h : splitHash s = [a]) : fragOf s = "" := by
  simp [fragOf, h]

theorem fragOf_of_two {s a b : String} (h : splitHash s = [a, b]) :
    fragOf s = pyRemovesuffix b ".html" := by
  simp [fragOf, h]

/-! ## State plumbing of the `compute_redirects` loop -/

theorem processEntry_ropt (bu up : String) (st : ComputeState) (source pg fr : String) :
    (processEntry bu up st source pg fr).ropt = st.ropt := by
  simp only [processEntry]
  split
  · rfl
  · split
    · rfl
    · rfl

theorem computeStep_ropt (bu up : String) (st : ComputeState) (source : String) :
    (computeStep bu up st source).ropt = st.ropt := by
  unfold computeStep
  split
  · exact processEntry_ropt ..
  · exact processEntry_ropt ..
  · rfl

theorem loop_ropt (bu up : String) (keys : List String) (st : ComputeState) :
    (keys.foldl (computeStep bu up) st).ropt = st.ropt := by
  induction keys generalizing st with
  | nil => rfl
  | cons k rest ih => rw [List.foldl_cons, ih, computeStep_ropt]

theorem processEntry_warns (bu up : String) (st : ComputeState) (source pg fr : String) :
    ∃ tail, (processEntry bu up st source pg fr).warns = st.warns ++ tail := by
  simp only [processEntry]
  split
  · exact ⟨_, rfl⟩
  · split
    · exact ⟨_, rfl⟩
    · exact ⟨[], (List.append_nil _).symm⟩

theorem computeStep_warns (bu up : String) (st : ComputeState) (source : String) :
    ∃ tail, (computeStep bu up st source).warns = st.warns ++ tail := by
  unfold computeStep
  split
  · exact processEntry_warns ..
  · exact processEntry_warns ..
  · exact ⟨_, rfl⟩

theorem mem_warns_loop (bu up : String) (keys : List String) (st : ComputeState)
    (w : Warning) (h : w ∈ st.warns) :
    w ∈ (keys.foldl (computeStep bu up) st).warns := by
  induction keys generalizing st with
  | nil => exact h
  | cons k rest ih =>
    rw [List.foldl_cons]
    apply ih
    obtain ⟨tail, ht⟩ := computeStep_warns bu up st k
    rw [ht]
    exact List.mem_append_left _ h

theorem loop_emit_warn (bu up : String) (ropt0 : List (String × String)) (w : Warning)
    (k : String)
    (hstep : ∀ st : ComputeState, st.ropt = ropt0 → w ∈ (computeStep bu up st k).warns) :
    ∀ (keys : List String) (st : ComputeState), st.ropt = ropt0 → k ∈ keys →
      w ∈ (keys.foldl (computeStep bu up) st).warns := by
  intro keys
  induction keys with
  | nil => intro st _ hk; simp at hk
  | cons k' rest ih =>
    intro st hr hk
    rw [List.foldl_cons]
    rcases List.mem_cons.mp hk with he | he
    · subst he
      exact mem_warns_loop _ _ _ _ _ (hstep st hr)
    · exact ih _ (by rw [computeStep_ropt]; exact hr) he

theorem computeStep_invalid {src : String} (bu up : String) (st : ComputeState)
    (h : 2 ≤ countHash src) :
    computeStep bu up st src = { st with warns := st.warns ++ [Warning.invalidRedirect src] } := by
  obtain ⟨a, b, c, rest, hsp⟩ := splitHash_shape_ge_two h
  unfold computeStep
  rw [hsp]

theorem computeStep_eq_one {src a : String} (bu up : String) (st : ComputeState)
    (h : splitHash src = [a]) :
    computeStep bu up st src
      = processEntry bu up st src (pyRemovesuffix a ".html") "" := by
  unfold computeStep
  rw [h]

theorem computeStep_eq_two {src a b : String} (bu up : String) (st : ComputeState)
    (h : splitHash src = [a, b]) :
    computeStep bu up st src
      = processEntry bu up st src (pyRemovesuffix a ".html") (pyRemovesuffix b ".html") := by
  unfold computeStep
  rw [h]

theorem computeStep_emptyPage {src : String} (bu up : String) (st : ComputeState)
    (hc : countHash src ≤ 1) (hp : pageOf src = "") :
    computeStep bu up st src = { st with warns := st.warns ++ [Warning.emptyPageName src] } := by
  rcases splitHash_shape_le_one hc with ⟨a, hsp⟩ | ⟨a, b, hsp⟩
  · have hpg : pyRemovesuffix a ".html" = "" := by rw [← pageOf_of_one hsp]; exact hp
    unfold computeStep
    rw [hsp]
    simp [processEntry, hpg]
  · have hpg : pyRemovesuffix a ".html" = "" := by rw [← pageOf_of_two hsp]; exact hp
    unfold computeStep
    rw [hsp]
    simp [processEntry, hpg]

/-! ## Tracking one fragment binding through the `compute_redirects` loop -/

/-- The target stored for fragment key `key` of page `p` in a computed
redirect map, if any. -/
def bindingAt (computed : List (String × List (String × String))) (p key : String) :
    Option String :=
  (dictGet computed p).bind (fun inner => dictGet inner key)

theorem bindingAt_isSome {computed : List (String × List (String × String))}
    {p key val : String} (h : bindingAt computed p key = some val) :
    (dictGet computed p).isSome = true := by
  unfold bindingAt at h
  cases hg : dictGet computed p with
  | none => rw [hg] at h; simp at h
  | some inner => rfl

/-- Stripping a prefix from the empty string yields the empty string. -/
theorem removePre_empty (pre : String) : removePre "" pre = "" := by
  unfold removePre
  split
  · rename_i h
    have : pre.data = [] := by
      cases hp : pre.data with
      | nil => rfl
      | cons c l =>
        rw [hp] at h
        simp [List.isPrefixOf] at h
    simp [this]
  · rfl

/-- The storing iteration: a valid entry writes its normalized target
under its fragment key of its page. -/
theorem processEntry_binding_store (bu up : String) (st : ComputeState)
    (src pg fr t : String) (hp : pg ≠ "") (hf : dictGet st.ropt src = some t)
    (ht : removePre t bu ≠ "") :
    bindingAt (processEntry bu up st src pg fr).computed pg
        (if fr = "" then DEFAULT_PAGE else fr)
      = some (if up ≠ "" ∧ pyStartswith (removePre t bu) "/"
          then up ++ removePre t bu else removePre t bu) := by
  simp only [processEntry, if_neg hp, hf, Option.getD_some, if_neg ht]
  unfold bindingAt
  rw [dictGet_dictSet_self]
  rw [Option.some_bind]
  rw [dictGet_dictSet_self]

/-- Iterations that do not target the tracked page/fragment pair leave
its binding unchanged. -/
theorem processEntry_preserve_binding (bu up p key : String) (st : ComputeState)
    (src pg fr : String) (hsome : (dictGet st.computed p).isSome = true)
    (hcond : pg = "" ∨ pg ≠ p ∨ removePre ((dictGet st.ropt src).getD "") bu = "" ∨
      (if fr = "" then DEFAULT_PAGE else fr) ≠ key) :
    bindingAt (processEntry bu up st src pg fr).computed p key
      = bindingAt st.computed p key := by
  by_cases h1 : pg = ""
  · simp only [processEntry, if_pos h1]
  · simp only [processEntry, if_neg h1]
    have hens : dictGet (if dictMem st.computed pg then st.computed
        else dictSet st.computed pg []) p = dictGet st.computed p := by
      by_cases hpg : pg = p
      · subst hpg
        rw [if_pos]
        exact hsome
      · split
        · rfl
        · exact dictGet_dictSet_ne _ _ (fun hh => hpg hh.symm)
    by_cases ht : removePre ((dictGet st.ropt src).getD "") bu = ""
    · simp only [if_pos ht]
      unfold bindingAt
      rw [hens]
    · simp only [if_neg ht]
      by_cases hpg : pg = p
      · subst hpg
        have hkey : (if fr = "" then DEFAULT_PAGE else fr) ≠ key := by
          rcases hcond with h | h | h | h
          · exact absurd h h1
          · exact absurd rfl h
          · exact absurd h ht
          · exact h
        unfold bindingAt
        rw [dictGet_dictSet_self]
        obtain ⟨inner, hinner⟩ := Option.isSome_iff_exists.mp hsome
        rw [hinner]
        rw [Option.some_bind]
        rw [dictGet_dictSet_ne _ _ (Ne.symm hkey)]
        simp only [dictGetD, hens, hinner, Option.getD_some]
        rfl
      · unfold bindingAt
        rw [dictGet_dictSet_ne _ _ (fun hh => hpg hh.symm), hens]

/-- `computeStep` version of `processEntry_preserve_binding`, with the
skip conditions phrased on the raw source string. -/
theorem computeStep_preserve_binding (bu up p key : String) (st : ComputeState)
    (k : String) (hsome : (dictGet st.computed p).isSome = true)
    (hcond : 2 ≤ countHash k ∨ pageOf k = "" ∨ pageOf k ≠ p ∨
      removePre ((dictGet st.ropt k).getD "") bu = "" ∨ keyOf k ≠ key) :
    bindingAt (computeStep bu up st k).computed p key = bindingAt st.computed p key := by
  by_cases hc2 : 2 ≤ countHash k
  · rw [computeStep_invalid bu up st hc2]
  · have hc1 : countHash k ≤ 1 := by omega
    rcases splitHash_shape_le_one hc1 with ⟨a, hsp⟩ | ⟨a, b, hsp⟩
    · unfold computeStep
      rw [hsp]
      apply processEntry_preserve_binding
      · exact hsome
      · rcases hcond with h | h | h | h | h
        · exact absurd h hc2
        · exact Or.inl (by rw [← pageOf_of_one hsp]; exact h)
        · exact Or.inr (Or.inl (by rw [← pageOf_of_one hsp]; exact h))
        · exact Or.inr (Or.inr (Or.inl h))
        · refine Or.inr (Or.inr (Or.inr ?_))
          have hfrag := fragOf_of_one hsp
          unfold keyOf at h
          rw [hfrag] at h
          exact h
    · unfold computeStep
      rw [hsp]
      apply processEntry_preserve_binding
      · exact hsome
      · rcases hcond with h | h | h | h | h
        · exact absurd h hc2
        · exact Or.inl (by rw [← pageOf_of_two hsp]; exact h)
        · exact Or.inr (Or.inl (by rw [← pageOf_of_two hsp]; exact h))
        · exact Or.inr (Or.inr (Or.inl h))
        · refine Or.inr (Or.inr (Or.inr ?_))
          have hfrag := fragOf_of_two hsp
          unfold keyOf at h
          rw [hfrag] at h
          exact h

/-- Folding over sources none of which may overwrite the tracked binding
preserves it. -/
theorem loop_preserve_binding (bu up p key : String)
    (ropt0 : List (String × String)) (val : String) :
    ∀ (keys : List String) (st : ComputeState), st.ropt = ropt0 →
      (∀ k ∈ keys, 2 ≤ countHash k ∨ pageOf k = "" ∨ pageOf k ≠ p ∨
        removePre ((dictGet ropt0 k).getD "") bu = "" ∨ keyOf k ≠ key) →
      bindingAt st.computed p key = some val →
      bindingAt (keys.foldl (computeStep bu up) st).computed p key = some val := by
  intro keys
  induction keys with
  | nil => intro st _ _ hb; exact hb
  | cons k rest ih =>
    intro st hr hcond hb
    rw [List.foldl_cons]
    apply ih
    · rw [computeStep_ropt]; exact hr
    · intro k' hk'; exact hcond k' (List.mem_cons_of_mem _ hk')
    · rw [computeStep_preserve_binding bu up p key st k (bindingAt_isSome hb)
        (by rw [hr]; exact hcond k (List.mem_cons_self _ _))]
      exact hb

/-! ## Invariants of the computed map: value provenance and key nodup -/

/-- `normTargetSpec` written without its `let` bindings. -/
theorem normTargetSpec_eval (bu0 up0 t : String) :
    normTargetSpec bu0 up0 t =
      if pyRemovesuffix up0 "/" ≠ "" ∧
          pyStartswith (removePre t (pyRemovesuffix bu0 "/")) "/"
      then pyRemovesuffix up0 "/" ++ removePre t (pyRemovesuffix bu0 "/")
      else removePre t (pyRemovesuffix bu0 "/") := rfl

/-- Every target stored in a computed map is the spec-normalization of
some configured target whose base-URL-stripped form is non-empty. -/
def ValuesOk (bu0 up0 : String) (ropt0 : List (String × String))
    (computed : List (String × List (String × String))) : Prop :=
  ∀ p inner, (p, inner) ∈ computed → ∀ k v, (k, v) ∈ inner →
    ∃ s t, (s, t) ∈ ropt0 ∧ v = normTargetSpec bu0 up0 t ∧
      removePre t (pyRemovesuffix bu0 "/") ≠ ""

theorem ValuesOk.ensure {bu0 up0 : String} {r : List (String × String)}
    {C : List (String × List (String × String))} (hv : ValuesOk bu0 up0 r C)
    (pg : String) :
    ValuesOk bu0 up0 r (if dictMem C pg then C else dictSet C pg []) := by
  split
  · exact hv
  · intro p inner hmem k v hkv
    rcases mem_dictSet hmem with hm | hm
    · exact hv p inner hm k v hkv
    · cases hm
      simp at hkv

theorem ValuesOk.store {bu0 up0 : String} {r : List (String × String)}
    {C : List (String × List (String × String))} (hv : ValuesOk bu0 up0 r C)
    {t : String} (pg key : String) (hst : ∃ s, (s, t) ∈ r)
    (hne : removePre t (pyRemovesuffix bu0 "/") ≠ "") :
    ValuesOk bu0 up0 r
      (dictSet C pg (dictSet (dictGetD C pg []) key (normTargetSpec bu0 up0 t))) := by
  intro p inner hmem k v hkv
  rcases mem_dictSet hmem with hm | hm
  · exact hv p inner hm k v hkv
  · cases hm
    rcases mem_dictSet hkv with hkv2 | hkv2
    · cases hgi : dictGet C pg with
      | none => rw [dictGetD, hgi] at hkv2; simp at hkv2
      | some i =>
        rw [dictGetD, hgi, Option.getD_some] at hkv2
        exact hv pg i (mem_of_dictGet hgi) k v hkv2
    · cases hkv2
      obtain ⟨s, hs⟩ := hst
      exact ⟨s, t, hs, rfl, hne⟩

theorem computeStep_valuesOk (bu0 up0 : String) (ropt0 : List (String × String))
    (st : ComputeState) (k : String) (hr : st.ropt = ropt0)
    (hv : ValuesOk bu0 up0 ropt0 st.computed) :
    ValuesOk bu0 up0 ropt0
      ((computeStep (pyRemovesuffix bu0 "/") (pyRemovesuffix up0 "/") st k).computed) := by
  have main : ∀ pg fr, ValuesOk bu0 up0 ropt0
      ((processEntry (pyRemovesuffix bu0 "/") (pyRemovesuffix up0 "/")
        st k pg fr).computed) := by
    intro pg fr
    by_cases h1 : pg = ""
    · simp only [processEntry, if_pos h1]
      exact hv
    · simp only [processEntry, if_neg h1]
      by_cases ht : removePre ((dictGet st.ropt k).getD "") (pyRemovesuffix bu0 "/") = ""
      · simp only [if_pos ht]
        exact hv.ensure pg
      · simp only [if_neg ht]
        cases hgf : dictGet st.ropt k with
        | none =>
          rw [hgf, Option.getD_none] at ht
          exact absurd (removePre_empty _) ht
        | some t =>
          rw [hgf, Option.getD_some] at ht
          simp only [Option.getD_some]
          rw [← normTargetSpec_eval bu0 up0 t]
          exact (hv.ensure pg).store pg _ ⟨k, hr ▸ mem_of_dictGet hgf⟩ ht
  unfold computeStep
  split
  · apply main
  · apply main
  · exact hv

theorem loop_valuesOk (bu0 up0 : String) (ropt0 : List (String × String)) :
    ∀ (keys : List String) (st : ComputeState), st.ropt = ropt0 →
      ValuesOk bu0 up0 ropt0 st.computed →
      ValuesOk bu0 up0 ropt0
        ((keys.foldl (computeStep (pyRemovesuffix bu0 "/") (pyRemovesuffix up0 "/"))
          st).computed) := by
  intro keys
  induction keys with
  | nil => intro st _ hv; exact hv
  | cons k rest ih =>
    intro st hr hv
    rw [List.foldl_cons]
    exact ih _ (by rw [computeStep_ropt]; exact hr) (computeStep_valuesOk bu0 up0 ropt0 st k hr hv)

theorem compute_valuesOk (bu0 up0 : String) (l : List (String × String)) :
    ValuesOk bu0 up0 l ((compute_redirects bu0 up0 l).computed) := by
  intro p inner hmem k v hkv
  simp only [compute_redirects] at hmem
  have hmem' := List.mem_of_mem_filter hmem
  exact loop_valuesOk bu0 up0 l (l.map Prod.fst) ⟨l, [], []⟩ rfl
    (by intro p' inner' hm; simp at hm) p inner hmem' k v hkv

/-- Every value of the computed redirect map is the spec-normalization
of some configured target (form used by the claims). -/
theorem compute_value_spec {bu0 up0 : String} {l : List (String × String)}
    {p k v : String} {inner : List (String × String)}
    (hm : dictGet (compute_redirects bu0 up0 l).computed p = some inner)
    (hkv : (k, v) ∈ inner) :
    ∃ s t, (s, t) ∈ l ∧ v = normTargetSpec bu0 up0 t ∧
      removePre t (pyRemovesuffix bu0 "/") ≠ "" :=
  compute_valuesOk bu0 up0 l p inner (mem_of_dictGet hm) k v hkv

theorem strData_append (a b : String) : (a ++ b).data = a.data ++ b.data := rfl

theorem strEq_empty_iff (s : String) : s = "" ↔ s.data = [] := by
  constructor
  · intro h; rw [h]
  · intro h
    cases s with
    | mk d => cases h; rfl

theorem normTargetSpec_ne_empty {bu0 up0 t : String}
    (h : removePre t (pyRemovesuffix bu0 "/") ≠ "") :
    normTargetSpec bu0 up0 t ≠ "" := by
  rw [normTargetSpec_eval]
  split
  · intro hcontra
    rw [strEq_empty_iff, strData_append, List.append_eq_nil] at hcontra
    exact h ((strEq_empty_iff _).mpr hcontra.2)
  · exact h

/-- Values stored in the computed redirect map are never the empty
string. -/
theorem compute_value_ne_empty {bu0 up0 : String} {l : List (String × String)}
    {p k v : String} {inner : List (String × String)}
    (hm : dictGet (compute_redirects bu0 up0 l).computed p = some inner)
    (hkv : (k, v) ∈ inner) : v ≠ "" := by
  obtain ⟨s, t, _, hvt, hne⟩ := compute_value_spec hm hkv
  rw [hvt]
  exact normTargetSpec_ne_empty hne

theorem processEntry_nodupKeys (bu up : String) (st : ComputeState) (src pg fr : String)
    (h : (st.computed.map Prod.fst).Nodup) :
    ((processEntry bu up st src pg fr).computed.map Prod.fst).Nodup := by
  by_cases h1 : pg = ""
  · simp only [processEntry, if_pos h1]
    exact h
  · simp only [processEntry, if_neg h1]
    have hens : (((if dictMem st.computed pg then st.computed
        else dictSet st.computed pg []) : List _).map Prod.fst).Nodup := by
      split
      · exact h
      · exact nodup_keys_dictSet pg [] h
    split
    · exact hens
    · exact nodup_keys_dictSet _ _ hens

theorem computeStep_nodupKeys (bu up : String) (st : ComputeState) (src : String)
    (h : (st.computed.map Prod.fst).Nodup) :
    ((computeStep bu up st src).computed.map Prod.fst).Nodup := by
  unfold computeStep
  split
  · exact processEntry_nodupKeys _ _ _ _ _ _ h
  · exact processEntry_nodupKeys _ _ _ _ _ _ h
  · exact h

theorem loop_nodupKeys (bu up : String) :
    ∀ (keys : List String) (st : ComputeState), (st.computed.map Prod.fst).Nodup →
      (((keys.foldl (computeStep bu up) st).computed.map Prod.fst)).Nodup := by
  intro keys
  induction keys with
  | nil => intro st h; exact h
  | cons k rest ih =>
    intro st h
    rw [List.foldl_cons]
    exact ih _ (computeStep_nodupKeys bu up st k h)

/-- The pages of the computed redirect map are pairwise distinct. -/
theorem compute_nodupKeys (bu0 up0 : String) (l : List (String × String)) :
    (((compute_redirects bu0 up0 l).computed).map Prod.fst).Nodup := by
  simp only [compute_redirects]
  exact ((List.filter_sublist _).map Prod.fst).nodup
    (loop_nodupKeys _ _ (l.map Prod.fst) ⟨l, [], []⟩ (by simp))

/-! ## Removing a malformed entry does not change the computed map -/

theorem keys_filter_ne (l : List (String × String)) (s : String) :
    (l.filter (fun e => !(e.1 == s))).map Prod.fst
      = (l.map Prod.fst).filter (fun x => !(x == s)) := by
  induction l with
  | nil => rfl
  | cons e rest ih =>
    obtain ⟨q, w⟩ := e
    by_cases h : q = s <;> simp [List.filter_cons, h, ih]

theorem processEntry_computed_congr (bu up : String) (st₁ st₂ : ComputeState)
    (src pg fr : String) (hc : st₁.computed = st₂.computed)
    (hf : dictGet st₁.ropt src = dictGet st₂.ropt src) :
    (processEntry bu up st₁ src pg fr).computed
      = (processEntry bu up st₂ src pg fr).computed := by
  by_cases h1 : pg = ""
  · simp only [processEntry, if_pos h1]
    exact hc
  · simp only [processEntry, if_neg h1, hc, hf]
    split <;> rfl

theorem computeStep_computed_congr (bu up : String) (st₁ st₂ : ComputeState)
    (src : String) (hc : st₁.computed = st₂.computed)
    (hf : dictGet st₁.ropt src = dictGet st₂.ropt src) :
    (computeStep bu up st₁ src).computed = (computeStep bu up st₂ src).computed := by
  unfold computeStep
  rcases hs : splitHash src with _ | ⟨a, _ | ⟨b, _ | ⟨c, rest⟩⟩⟩
  · exact hc
  · exact processEntry_computed_congr bu up st₁ st₂ src _ _ hc hf
  · exact processEntry_computed_congr bu up st₁ st₂ src _ _ hc hf
  · exact hc

theorem loop_computed_skip (bu up : String) (l : List (String × String)) (s : String)
    (hcount : 2 ≤ countHash s) :
    ∀ (keys : List String) (st₁ st₂ : ComputeState), st₁.ropt = l →
      st₂.ropt = l.filter (fun e => !(e.1 == s)) → st₁.computed = st₂.computed →
      (keys.foldl (computeStep bu up) st₁).computed
        = ((keys.filter (fun x => !(x == s))).foldl (computeStep bu up) st₂).computed := by
  intro keys
  induction keys with
  | nil => intro st₁ st₂ _ _ hc; exact hc
  | cons k rest ih =>
    intro st₁ st₂ hr₁ hr₂ hc
    by_cases hk : k = s
    · have hfil : List.filter (fun x => !(x == s)) (k :: rest)
          = List.filter (fun x => !(x == s)) rest := by
        simp [List.filter_cons, hk]
      rw [List.foldl_cons, hfil]
      apply ih
      · rw [computeStep_ropt]; exact hr₁
      · exact hr₂
      · rw [hk, computeStep_invalid bu up st₁ hcount]
        exact hc
    · have hfil : List.filter (fun x => !(x == s)) (k :: rest)
          = k :: List.filter (fun x => !(x == s)) rest := by
        simp [List.filter_cons, hk]
      rw [List.foldl_cons, hfil, List.foldl_cons]
      apply ih
      · rw [computeStep_ropt]; exact hr₁
      · rw [computeStep_ropt]; exact hr₂
      · apply computeStep_computed_congr bu up st₁ st₂ k hc
        rw [hr₁, hr₂, dictGet_filter_key_ne _ hk]

/-! ## The `html_collect_pages` loop -/

/-- The tuple `html_collect_pages` emits for a page (not a document of
the build) whose inner map is `inner`. -/
def emittedTuple (page : String) (inner : List (String × String)) :
    String × (String × String) × String :=
  if inner.length = 1 ∧ dictMem inner DEFAULT_PAGE = true then
    (page, ("to_uri", (dictGet inner DEFAULT_PAGE).getD ""), "simpleredirect.html")
  else
    (page, (CTX_FRAGMENT_REDIRECTS, build_js_object (augmentInner inner)), "redirect.html")

theorem collectStep_at_page (all_docs : List String) (writeExt : Bool)
    (st : CollectState) (page : String) (inner : List (String × String))
    (hdoc : page ∉ all_docs) (hm : dictGet st.computed page = some inner) :
    (collectStep all_docs writeExt st page).pages = st.pages ++ [emittedTuple page inner]
    ∧ dictGet (collectStep all_docs writeExt st page).computed page
        = some (augmentInner inner) := by
  have hinner : dictGetD st.computed page [] = inner := by
    rw [dictGetD, hm, Option.getD_some]
  by_cases hsimple : inner.length = 1 ∧ dictMem inner DEFAULT_PAGE = true
  · constructor
    · simp only [collectStep, if_neg hdoc, hinner, if_pos hsimple, emittedTuple]
    · simp only [collectStep, if_neg hdoc, hinner, if_pos hsimple]
      rw [hm]
      have : augmentInner inner = inner := by
        unfold augmentInner
        rw [if_neg]
        intro hcontra
        rw [hsimple.2] at hcontra
        simp at hcontra
      rw [this]
  · have hcomputed : dictGet (collectStep all_docs writeExt st page).computed page
        = some (augmentInner inner) := by
      simp only [collectStep, if_neg hdoc, hinner, if_neg hsimple]
      by_cases hlen : inner.length = 1
      · simp only [if_pos hlen]
        by_cases hurl : (inner.headD ("", "")).2 ≠ ""
        · rw [if_pos hurl, dictGet_dictSet_self]
          unfold augmentInner
          rw [if_pos]
          constructor
          · exact hlen
          constructor
          · rcases Bool.eq_false_or_eq_true (dictMem inner DEFAULT_PAGE) with h | h
            · exact absurd ⟨hlen, h⟩ hsimple
            · exact h
          · exact hurl
        · rw [if_neg hurl, hm]
          unfold augmentInner
          rw [if_neg]
          · intro hcontra
            exact hurl hcontra.2.2
      · simp only [if_neg hlen, hm]
        unfold augmentInner
        rw [if_neg]
        intro hcontra
        exact hlen hcontra.1
    refine ⟨?_, hcomputed⟩
    simp only [collectStep, if_neg hdoc, hinner, if_neg hsimple, emittedTuple]
    have hjs : dictGetD (if inner.length = 1 then
          (if (inner.headD ("", "")).2 ≠ "" then
            dictSet st.computed page (dictSet inner DEFAULT_PAGE (inner.headD ("", "")).2)
          else st.computed)
        else st.computed) page [] = augmentInner inner := by
      have := hcomputed
      simp only [collectStep, if_neg hdoc, hinner, if_neg hsimple] at this
      rw [dictGetD, this, Option.getD_some]
    rw [hjs]

theorem collectStep_pages_exists (docs : List String) (w : Bool) (st : CollectState)
    (k : String) :
    ∃ add, (collectStep docs w st k).pages = st.pages ++ add ∧
      (∀ x ∈ add, x.1 = k) ∧ (k ∈ docs → add = []) := by
  by_cases hd : k ∈ docs
  · refine ⟨[], ?_, by simp, fun _ => rfl⟩
    simp [collectStep, hd]
  · simp only [collectStep, if_neg hd]
    split
    · exact ⟨_, rfl, by simp, fun h => absurd h hd⟩
    · exact ⟨_, rfl, by simp, fun h => absurd h hd⟩

theorem collectStep_computed_ne (docs : List String) (w : Bool) (st : CollectState)
    {k p : String} (h : k ≠ p) :
    dictGet (collectStep docs w st k).computed p = dictGet st.computed p := by
  by_cases hd : k ∈ docs
  · simp [collectStep, hd]
  · simp only [collectStep, if_neg hd]
    split
    · rfl
    · split
      · split
        · exact dictGet_dictSet_ne _ _ (Ne.symm h)
        · rfl
      · rfl

theorem loop_collect_preserve (docs : List String) (w : Bool) (p : String) :
    ∀ (keys : List String) (st : CollectState), p ∉ keys →
      ((keys.foldl (collectStep docs w) st).pages.filter (fun x => x.1 == p)
        = st.pages.filter (fun x => x.1 == p))
      ∧ dictGet (keys.foldl (collectStep docs w) st).computed p
          = dictGet st.computed p := by
  intro keys
  induction keys with
  | nil => intro st _; exact ⟨rfl, rfl⟩
  | cons k rest ih =>
    intro st hp
    have hk : k ≠ p := fun h => hp (h ▸ List.mem_cons_self _ _)
    have hrest : p ∉ rest := fun h => hp (List.mem_cons_of_mem _ h)
    rw [List.foldl_cons]
    obtain ⟨hfil, hcomp⟩ := ih (collectStep docs w st k) hrest
    refine ⟨?_, by rw [hcomp, collectStep_computed_ne docs w st hk]⟩
    rw [hfil]
    obtain ⟨add, hadd, hall, _⟩ := collectStep_pages_exists docs w st k
    rw [hadd, List.filter_append]
    have : add.filter (fun x => x.1 == p) = [] := by
      rw [List.filter_eq_nil_iff]
      intro x hx
      rw [hall x hx]
      simp [hk]
    rw [this, List.append_nil]

theorem loop_collect_pages_mono (docs : List String) (w : Bool) :
    ∀ (keys : List String) (st : CollectState) (x : String × (String × String) × String),
      x ∈ st.pages → x ∈ (keys.foldl (collectStep docs w) st).pages := by
  intro keys
  induction keys with
  | nil => intro st x h; exact h
  | cons k rest ih =>
    intro st x h
    rw [List.foldl_cons]
    apply ih
    obtain ⟨add, hadd, _, _⟩ := collectStep_pages_exists docs w st k
    rw [hadd]
    exact List.mem_append_left _ h

theorem loop_collect_not_in_docs (docs : List String) (w : Bool) :
    ∀ (keys : List String) (st : CollectState),
      (∀ x ∈ st.pages, x.1 ∉ docs) →
      ∀ x ∈ (keys.foldl (collectStep docs w) st).pages, x.1 ∉ docs := by
  intro keys
  induction keys with
  | nil => intro st h; exact h
  | cons k rest ih =>
    intro st h
    rw [List.foldl_cons]
    apply ih
    intro x hx
    obtain ⟨add, hadd, hall, hdocs⟩ := collectStep_pages_exists docs w st k
    rw [hadd] at hx
    rcases List.mem_append.mp hx with hx | hx
    · exact h x hx
    · by_cases hkd : k ∈ docs
      · rw [hdocs hkd] at hx
        simp at hx
      · rw [hall x hx]
        exact hkd

/-- Decomposing a nodup key list around one member. -/
theorem nodup_split {p : String} {K : List String} (hnd : K.Nodup) (hp : p ∈ K) :
    ∃ K₁ K₂, K = K₁ ++ p :: K₂ ∧ p ∉ K₁ ∧ p ∉ K₂ := by
  obtain ⟨K₁, K₂, rfl⟩ := List.append_of_mem hp
  rw [List.nodup_append] at hnd
  refine ⟨K₁, K₂, rfl, ?_, ?_⟩
  · intro hin
    exact hnd.2.2 hin (List.mem_cons_self _ _)
  · exact (List.nodup_cons.mp hnd.2.1).1

/-- What `html_collect_pages` does for one page of the computed map that
is not a document of the build: it emits exactly one tuple for it, and
the page's inner map ends up augmented. -/
theorem collect_at_page (w : Bool) (docs : List String)
    (m : List (String × List (String × String))) (page : String)
    (inner : List (String × String)) (hnd : (m.map Prod.fst).Nodup)
    (hm : dictGet m page = some inner) (hdoc : page ∉ docs) :
    (html_collect_pages true w docs m).pages.filter (fun x => x.1 == page)
        = [emittedTuple page inner]
    ∧ dictGet (html_collect_pages true w docs m).computed page
        = some (augmentInner inner)
    ∧ emittedTuple page inner ∈ (html_collect_pages true w docs m).pages := by
  have hpk : page ∈ m.map Prod.fst :=
    (dictGet_isSome_iff m page).mp (by rw [hm]; rfl)
  obtain ⟨K₁, K₂, hK, hp1, hp2⟩ := nodup_split hnd hpk
  have hcollect : html_collect_pages true w docs m
      = K₂.foldl (collectStep docs w)
          (collectStep docs w (K₁.foldl (collectStep docs w) ⟨[], m, []⟩) page) := by
    simp only [html_collect_pages, Bool.not_true]
    rw [if_neg (by simp), hK, List.foldl_append, List.foldl_cons]
  obtain ⟨hfil1, hcomp1⟩ := loop_collect_preserve docs w page K₁ ⟨[], m, []⟩ hp1
  have hst1 : dictGet (K₁.foldl (collectStep docs w) ⟨[], m, []⟩).computed page
      = some inner := by rw [hcomp1]; exact hm
  obtain ⟨hpages2, hcomp2⟩ :=
    collectStep_at_page docs w (K₁.foldl (collectStep docs w) ⟨[], m, []⟩) page inner
      hdoc hst1
  obtain ⟨hfil3, hcomp3⟩ := loop_collect_preserve docs w page K₂
    (collectStep docs w (K₁.foldl (collectStep docs w) ⟨[], m, []⟩) page) hp2
  refine ⟨?_, ?_, ?_⟩
  · rw [hcollect, hfil3, hpages2, List.filter_append, hfil1]
    simp [emittedTuple]
    split <;> simp
  · rw [hcollect, hcomp3, hcomp2]
  · rw [hcollect]
    apply loop_collect_pages_mono
    rw [hpages2]
    exact List.mem_append_right _ (List.mem_singleton.mpr rfl)

/-! ## Shape of the string built by `build_js_object` -/

/-- The concatenation of the `"key":"value",` chunks of a page map, in
order (the exact text accumulated by the loop of `build_js_object`). -/
def concatPairs : List (String × String) → String
  | [] => ""
  | e :: rest => "\"" ++ e.1 ++ "\":\"" ++ e.2 ++ "\"," ++ concatPairs rest

theorem foldl_concatPairs (m : List (String × String)) (acc : String) :
    m.foldl (fun acc e => acc ++ "\"" ++ e.1 ++ "\":\"" ++ e.2 ++ "\",") acc
      = acc ++ concatPairs m := by
  induction m generalizing acc with
  | nil => simp [concatPairs]
  | cons e rest ih =>
    rw [List.foldl_cons, ih, concatPairs]
    simp [String.append_assoc]

theorem concatPairs_eq_join {m : List (String × String)} (hne : m ≠ []) :
    concatPairs m = joinComma (m.map jsPairSpec) ++ "," := by
  induction m with
  | nil => exact absurd rfl hne
  | cons e rest ih =>
    cases rest with
    | nil =>
      show ("\"" ++ e.1 ++ "\":\"" ++ e.2 ++ "\"," ++ concatPairs []) = _
      have hq : ("\"," : String) = "\"" ++ "," := rfl
      simp [concatPairs, joinComma, jsPairSpec, hq, String.append_assoc]
    | cons e2 rest2 =>
      rw [concatPairs, ih (by simp)]
      have hq : ("\"," : String) = "\"" ++ "," := rfl
      simp only [List.map_cons, joinComma, jsPairSpec, hq, String.append_assoc]

theorem rstrip_append_comma {x y : String} (h : x = y ++ "\"") :
    rstripCommas (x ++ ",") = x := by
  subst h
  unfold rstripCommas
  have hdata : ((y ++ "\"") ++ ",").data = y.data ++ ['"', ','] := by
    rw [strData_append, strData_append]
    simp
  rw [hdata]
  have hrev : (y.data ++ ['"', ',']).reverse = ',' :: '"' :: y.data.reverse := by
    simp
  rw [hrev]
  have hdrop : List.dropWhile (fun c => c = ',') (',' :: '"' :: y.data.reverse)
      = '"' :: y.data.reverse := by
    rw [List.dropWhile_cons_of_pos (by simp), List.dropWhile_cons_of_neg (by simp)]
  rw [hdrop]
  have hrev2 : ('"' :: y.data.reverse).reverse = y.data ++ ['"'] := by simp
  rw [hrev2]
  cases y with
  | mk d => rfl

theorem joinComma_ends_quote {m : List (String × String)} (hne : m ≠ []) :
    ∃ y, joinComma (m.map jsPairSpec) = y ++ "\"" := by
  induction m with
  | nil => exact absurd rfl hne
  | cons e rest ih =>
    cases rest with
    | nil => exact ⟨"\"" ++ e.1 ++ "\":\"" ++ e.2, rfl⟩
    | cons e2 rest2 =>
      obtain ⟨y, hy⟩ := ih (by simp)
      refine ⟨jsPairSpec e ++ "," ++ y, ?_⟩
      show jsPairSpec e ++ ("," ++ joinComma ((e2 :: rest2).map jsPairSpec)) = _
      rw [hy]
      simp [String.append_assoc]

theorem bindingAt_eq_some {computed : List (String × List (String × String))}
    {p key val : String} (h : bindingAt computed p key = some val) :
    ∃ inner, dictGet computed p = some inner ∧ dictGet inner key = some val := by
  unfold bindingAt at h
  cases hg : dictGet computed p with
  | none => rw [hg] at h; simp at h
  | some inner => rw [hg, Option.some_bind] at h; exact ⟨inner, rfl, h⟩

theorem ne_nil_of_dictGet {α : Type} {inner : List (String × α)} {k : String} {v : α}
    (h : dictGet inner k = some v) : inner ≠ [] := by
  intro he
  subst he
  simp [dictGet] at h

/-! ## Claim theorems -/

/-- C1, counterexample: for the source `"p#.html"` (one `#`, page part
`"p"`, non-empty target `"t"`), the claim predicts an inner-map entry
under the fragment part with its trailing `.html` removed — the empty
string — but the code stores the target under the default key `"-"`
instead, and the inner map has no entry under `""`. -/
theorem claim1_counterexample :
    countHash "p#.html" ≤ 1
    ∧ pageOf "p#.html" = "p" ∧ ("p" : String) ≠ ""
    ∧ removePre "t" (pyRemovesuffix "" "/") = "t" ∧ ("t" : String) ≠ ""
    ∧ fragOf "p#.html" = ""
    ∧ dictGet (compute_redirects "" "" [("p#.html", "t")]).computed "p"
        = some [("-", "t")]
    ∧ ((dictGet (compute_redirects "" "" [("p#.html", "t")]).computed "p").bind
        (fun inner => dictGet inner (pyRemovesuffix ".html" ".html"))) = none := by
  decide

/-- C1 (amended): for a configuration entry whose source has at most one
`#`, whose page part is non-empty after `.html` stripping and whose
target is non-empty after base-URL stripping, and that is not
overridden by a later entry normalizing to the same page and inner key,
`compute_redirects` maps the page part to an inner map binding the
entry's key — the `.html`-stripped fragment when that is non-empty, the
default key `"-"` when the source has no fragment or its fragment
strips to the empty string — to the normalized target. -/
theorem claim1_compute_redirects_maps_entry
    (html_baseurl up0 : String) (l₁ l₂ : List (String × String)) (s t : String)
    (hnd : ((l₁ ++ (s, t) :: l₂).map Prod.fst).Nodup)
    (hc : countHash s ≤ 1)
    (hp : pageOf s ≠ "")
    (ht : removePre t (pyRemovesuffix html_baseurl "/") ≠ "")
    (hlater : ∀ s' t', (s', t') ∈ l₂ → countHash s' ≤ 1 → pageOf s' = pageOf s →
      keyOf s' = keyOf s → removePre t' (pyRemovesuffix html_baseurl "/") = "") :
    ∃ inner,
      dictGet (compute_redirects html_baseurl up0 (l₁ ++ (s, t) :: l₂)).computed
        (pageOf s) = some inner
      ∧ dictGet inner (keyOf s) = some (normTargetSpec html_baseurl up0 t) := by
  have hkeys : (l₁ ++ (s, t) :: l₂).map Prod.fst
      = l₁.map Prod.fst ++ s :: l₂.map Prod.fst := by simp
  rw [hkeys] at hnd
  rw [List.nodup_append] at hnd
  have hsK₁ : s ∉ l₁.map Prod.fst := fun h => hnd.2.2 h (List.mem_cons_self _ _)
  have hsK₂ : s ∉ l₂.map Prod.fst := (List.nodup_cons.mp hnd.2.1).1
  have hndK₂ : (l₂.map Prod.fst).Nodup := (List.nodup_cons.mp hnd.2.1).2
  have hfetch : dictGet (l₁ ++ (s, t) :: l₂) s = some t := by
    rw [dictGet_append_of_not_mem _ hsK₁]
    simp [dictGet]
  have hmain : bindingAt
      (((l₁ ++ (s, t) :: l₂).map Prod.fst).foldl
        (computeStep (pyRemovesuffix html_baseurl "/") (pyRemovesuffix up0 "/"))
        ⟨l₁ ++ (s, t) :: l₂, [], []⟩).computed
      (pageOf s) (keyOf s) = some (normTargetSpec html_baseurl up0 t) := by
    rw [hkeys, List.foldl_append, List.foldl_cons]
    have hr₁ : ((l₁.map Prod.fst).foldl
        (computeStep (pyRemovesuffix html_baseurl "/") (pyRemovesuffix up0 "/"))
        ⟨l₁ ++ (s, t) :: l₂, [], []⟩).ropt = l₁ ++ (s, t) :: l₂ :=
      loop_ropt _ _ _ _
    have hstep : bindingAt
        (computeStep (pyRemovesuffix html_baseurl "/") (pyRemovesuffix up0 "/")
          ((l₁.map Prod.fst).foldl
            (computeStep (pyRemovesuffix html_baseurl "/") (pyRemovesuffix up0 "/"))
            ⟨l₁ ++ (s, t) :: l₂, [], []⟩) s).computed
        (pageOf s) (keyOf s) = some (normTargetSpec html_baseurl up0 t) := by
      rcases splitHash_shape_le_one hc with ⟨a, hsp⟩ | ⟨a, b, hsp⟩
      · have hpg := pageOf_of_one hsp
        have hfr := fragOf_of_one hsp
        rw [computeStep_eq_one _ _ _ hsp, hpg, normTargetSpec_eval]
        have hkeq : keyOf s = (if ("" : String) = "" then DEFAULT_PAGE else "") := by
          unfold keyOf
          rw [hfr]
        rw [hkeq]
        exact processEntry_binding_store _ _ _ s _ "" t (by rw [← hpg]; exact hp)
          (by rw [hr₁]; exact hfetch) ht
      · have hpg := pageOf_of_two hsp
        have hfr := fragOf_of_two hsp
        rw [computeStep_eq_two _ _ _ hsp, hpg, normTargetSpec_eval]
        have hkeq : keyOf s = (if pyRemovesuffix b ".html" = "" then DEFAULT_PAGE
            else pyRemovesuffix b ".html") := by
          unfold keyOf
          rw [hfr]
        rw [hkeq]
        exact processEntry_binding_store _ _ _ s _ _ t (by rw [← hpg]; exact hp)
          (by rw [hr₁]; exact hfetch) ht
    apply loop_preserve_binding _ _ (pageOf s) (keyOf s) (l₁ ++ (s, t) :: l₂) _
      (l₂.map Prod.fst) _ (by rw [computeStep_ropt]; exact hr₁) _ hstep
    intro k hk
    obtain ⟨e, hmem, hek⟩ := List.mem_map.mp hk
    by_cases hc' : 2 ≤ countHash k
    · exact Or.inl hc'
    · have hc1' : countHash k ≤ 1 := by omega
      by_cases hpg' : pageOf k = pageOf s
      · by_cases hkey' : keyOf k = keyOf s
        · refine Or.inr (Or.inr (Or.inr (Or.inl ?_)))
          have hkK₁ : k ∉ l₁.map Prod.fst := by
            intro hin
            exact hnd.2.2 hin (List.mem_cons_of_mem _ (hek ▸ List.mem_map_of_mem Prod.fst hmem))
          have hks : s ≠ k := by
            intro he
            exact hsK₂ (he ▸ hek ▸ List.mem_map_of_mem Prod.fst hmem)
          have hget : dictGet (l₁ ++ (s, t) :: l₂) k = some e.2 := by
            rw [dictGet_append_of_not_mem _ hkK₁]
            simp only [dictGet, if_neg hks]
            exact dictGet_of_mem_nodup (hek ▸ hmem) hndK₂
          rw [hget, Option.getD_some]
          exact hlater k e.2 (hek ▸ hmem) hc1' hpg' hkey'
        · exact Or.inr (Or.inr (Or.inr (Or.inr hkey')))
      · exact Or.inr (Or.inr (Or.inl hpg'))
  obtain ⟨inner, hinner, hkv⟩ := bindingAt_eq_some hmain
  refine ⟨inner, ?_, hkv⟩
  simp only [compute_redirects]
  exact dictGet_filter_nonempty hinner (ne_nil_of_dictGet hkv)

/-- C1, witness to the amended theorem at a concrete configuration. -/
theorem claim1_witness :
    ∃ inner,
      dictGet (compute_redirects "" "" [("a#b", "/x")]).computed (pageOf "a#b")
        = some inner
      ∧ dictGet inner (keyOf "a#b") = some (normTargetSpec "" "" "/x") :=
  claim1_compute_redirects_maps_entry "" "" [] [] "a#b" "/x" (by decide) (by decide)
    (by decide) (by decide) (fun s' t' h => absurd h (by simp))

theorem computeStep_emptyTarget {src : String} (bu up : String) (st : ComputeState)
    (hc : countHash src ≤ 1) (hp : pageOf src ≠ "")
    (ht : removePre ((dictGet st.ropt src).getD "") bu = "") :
    (computeStep bu up st src).warns = st.warns ++ [Warning.emptyTarget src] := by
  rcases splitHash_shape_le_one hc with ⟨a, hsp⟩ | ⟨a, b, hsp⟩
  · have h1 : pyRemovesuffix a ".html" ≠ "" := by rw [← pageOf_of_one hsp]; exact hp
    rw [computeStep_eq_one _ _ _ hsp]
    simp only [processEntry, if_neg h1, if_pos ht]
  · have h1 : pyRemovesuffix a ".html" ≠ "" := by rw [← pageOf_of_two hsp]; exact hp
    rw [computeStep_eq_two _ _ _ hsp]
    simp only [processEntry, if_neg h1, if_pos ht]

/-- C2: every page of the map returned by `compute_redirects` holds a
non-empty inner map (empty pages are filtered out before returning), and
entries with an empty page name or an empty base-URL-stripped target
are dropped with the corresponding warning. -/
theorem claim2_no_empty_pages (html_baseurl up0 : String) (l : List (String × String))
    (hnd : (l.map Prod.fst).Nodup) :
    (∀ p inner,
      dictGet (compute_redirects html_baseurl up0 l).computed p = some inner →
        inner ≠ [])
    ∧ (∀ s t, (s, t) ∈ l → countHash s ≤ 1 → pageOf s = "" →
        Warning.emptyPageName s ∈ (compute_redirects html_baseurl up0 l).warns)
    ∧ (∀ s t, (s, t) ∈ l → countHash s ≤ 1 → pageOf s ≠ "" →
        removePre t (pyRemovesuffix html_baseurl "/") = "" →
        Warning.emptyTarget s ∈ (compute_redirects html_baseurl up0 l).warns) := by
  refine ⟨?_, ?_, ?_⟩
  · intro p inner hm
    simp only [compute_redirects] at hm
    have hprop := List.of_mem_filter (mem_of_dictGet hm)
    intro hcontra
    subst hcontra
    simp at hprop
  · intro s t hmem hc hpage
    simp only [compute_redirects]
    apply loop_emit_warn _ _ l _ s ?_ (l.map Prod.fst) ⟨l, [], []⟩ rfl
      (List.mem_map_of_mem Prod.fst hmem)
    intro st _
    rw [computeStep_emptyPage _ _ _ hc hpage]
    exact List.mem_append_right _ (List.mem_singleton.mpr rfl)
  · intro s t hmem hc hpage htarget
    simp only [compute_redirects]
    apply loop_emit_warn _ _ l _ s ?_ (l.map Prod.fst) ⟨l, [], []⟩ rfl
      (List.mem_map_of_mem Prod.fst hmem)
    intro st hr
    have hfe : dictGet st.ropt s = some t := by
      rw [hr]
      exact dictGet_of_mem_nodup hmem hnd
    have hw := computeStep_emptyTarget (pyRemovesuffix html_baseurl "/")
      (pyRemovesuffix up0 "/") st hc hpage (by rw [hfe, Option.getD_some]; exact htarget)
    rw [hw]
    exact List.mem_append_right _ (List.mem_singleton.mpr rfl)

/-- C2, witness: a concrete configuration exercising both drop cases. -/
theorem claim2_witness :
    Warning.emptyPageName "#f"
        ∈ (compute_redirects "bu" "" [("#f", "x"), ("a", "bu")]).warns
    ∧ Warning.emptyTarget "a"
        ∈ (compute_redirects "bu" "" [("#f", "x"), ("a", "bu")]).warns := by
  have h := claim2_no_empty_pages "bu" "" [("#f", "x"), ("a", "bu")] (by decide)
  exact ⟨h.2.1 "#f" "x" (by decide) (by decide) (by decide),
    h.2.2 "a" "bu" (by decide) (by decide) (by decide) (by decide)⟩

/-- C3: a source with two or more `#` characters produces an
invalid-redirect warning and contributes nothing: the computed map is
the one obtained with every entry of that source removed. -/
theorem claim3_invalid_entry_skipped (html_baseurl up0 : String)
    (l : List (String × String)) (s t : String) (hmem : (s, t) ∈ l)
    (hcount : 2 ≤ countHash s) :
    Warning.invalidRedirect s ∈ (compute_redirects html_baseurl up0 l).warns
    ∧ (compute_redirects html_baseurl up0 l).computed
        = (compute_redirects html_baseurl up0
            (l.filter (fun e => !(e.1 == s)))).computed := by
  constructor
  · simp only [compute_redirects]
    apply loop_emit_warn _ _ l _ s ?_ (l.map Prod.fst) ⟨l, [], []⟩ rfl
      (List.mem_map_of_mem Prod.fst hmem)
    intro st _
    rw [computeStep_invalid _ _ _ hcount]
    exact List.mem_append_right _ (List.mem_singleton.mpr rfl)
  · simp only [compute_redirects]
    rw [keys_filter_ne]
    rw [loop_computed_skip (pyRemovesuffix html_baseurl "/") (pyRemovesuffix up0 "/")
      l s hcount (l.map Prod.fst) ⟨l, [], []⟩ ⟨l.filter (fun e => !(e.1 == s)), [], []⟩
      rfl rfl rfl]

/-- C3, witness at a concrete configuration. -/
theorem claim3_witness :
    Warning.invalidRedirect "a#b#c"
        ∈ (compute_redirects "" "" [("a#b#c", "t"), ("d", "u")]).warns
    ∧ (compute_redirects "" "" [("a#b#c", "t"), ("d", "u")]).computed
        = (compute_redirects "" ""
            (([("a#b#c", "t"), ("d", "u")] : List (String × String)).filter
              (fun e => !(e.1 == "a#b#c")))).computed :=
  claim3_invalid_entry_skipped "" "" _ "a#b#c" "t" (by decide) (by decide)

/-- C4: every target stored by `compute_redirects` is obtained from a
configured target by removing the `html_baseurl` prefix (trailing `/`
stripped) when present, then prepending `url_path_prefix` (trailing `/`
stripped) when it is non-empty and the stripped target starts with `/`,
and is stored unchanged otherwise — the normalization captured by
`normTargetSpec`, written from the claim's words. -/
theorem claim4_target_normalization (html_baseurl up0 : String)
    (l : List (String × String)) (p k v : String) (inner : List (String × String))
    (hm : dictGet (compute_redirects html_baseurl up0 l).computed p = some inner)
    (hkv : dictGet inner k = some v) :
    ∃ s t, (s, t) ∈ l ∧ v = normTargetSpec html_baseurl up0 t := by
  obtain ⟨s, t, hst, hv, _⟩ := compute_value_spec hm (mem_of_dictGet hkv)
  exact ⟨s, t, hst, hv⟩

/-- C4, witness: base-URL stripping plus path-prefix rewriting on a
concrete entry. -/
theorem claim4_witness :
    ∃ s t, (s, t) ∈ ([("a", "https://x/y")] : List (String × String))
      ∧ "/docs/y" = normTargetSpec "https://x" "/docs/" t :=
  claim4_target_normalization "https://x" "/docs/" [("a", "https://x/y")]
    "a" "-" "/docs/y" [("-", "/docs/y")] (by decide) (by decide)

/-- C7: `compute_redirects` never writes to its `redirects_option`
argument — the threaded dict comes back exactly as it was passed in. -/
theorem claim7_redirects_option_unmodified (html_baseurl up0 : String)
    (l : List (String × String)) :
    (compute_redirects html_baseurl up0 l).ropt = l := by
  simp only [compute_redirects]
  exact loop_ropt _ _ _ _

/-- C5: for every page of the computed map that is not a document of the
build, `html_collect_pages` emits exactly one tuple: the simple-redirect
tuple when the page's inner map has exactly one entry under the default
key `"-"`, and otherwise the `redirect.html` tuple carrying the JS
object of the page's inner map as it stands at emission time (after the
single-fragment default augmentation of C6, captured by
`augmentInner`). -/
theorem claim5_collect_emits_one_page (w : Bool) (docs : List String)
    (m : List (String × List (String × String))) (page : String)
    (inner : List (String × String)) (hnd : (m.map Prod.fst).Nodup)
    (hm : dictGet m page = some inner) (hdoc : page ∉ docs) :
    (html_collect_pages true w docs m).pages.filter (fun x => x.1 == page)
      = [if inner.length = 1 ∧ dictMem inner DEFAULT_PAGE = true then
          (page, ("to_uri", (dictGet inner DEFAULT_PAGE).getD ""), "simpleredirect.html")
        else
          (page, (CTX_FRAGMENT_REDIRECTS, build_js_object (augmentInner inner)),
            "redirect.html")] := by
  have h := (collect_at_page w docs m page inner hnd hm hdoc).1
  rw [h]
  rfl

/-- C5, witness: a page with one non-default fragment entry yields one
`redirect.html` tuple. -/
theorem claim5_witness :
    (html_collect_pages true false ["d"] [("p", [("f", "/x")])]).pages.filter
        (fun x => x.1 == "p")
      = [if ([("f", "/x")] : List (String × String)).length = 1
            ∧ dictMem [("f", "/x")] DEFAULT_PAGE = true then
          ("p", ("to_uri", (dictGet [("f", "/x")] DEFAULT_PAGE).getD ""),
            "simpleredirect.html")
        else
          ("p", (CTX_FRAGMENT_REDIRECTS, build_js_object (augmentInner [("f", "/x")])),
            "redirect.html")] :=
  claim5_collect_emits_one_page false ["d"] [("p", [("f", "/x")])] "p" [("f", "/x")]
    (by decide) (by decide) (by decide)

/-- C6: a page of the computed map, not a document of the build, with a
single redirect entry under a non-default key first gets a default-key
entry with the same target appended, so the emitted JS object is built
from both entries. -/
theorem claim6_single_fragment_gets_default (html_baseurl up0 : String)
    (l : List (String × String)) (w : Bool) (docs : List String)
    (page k v : String)
    (hm : dictGet (compute_redirects html_baseurl up0 l).computed page = some [(k, v)])
    (hk : k ≠ DEFAULT_PAGE) (hdoc : page ∉ docs) :
    dictGet (html_collect_pages true w docs
        (compute_redirects html_baseurl up0 l).computed).computed page
      = some [(k, v), (DEFAULT_PAGE, v)]
    ∧ (page, (CTX_FRAGMENT_REDIRECTS, build_js_object [(k, v), (DEFAULT_PAGE, v)]),
        "redirect.html")
      ∈ (html_collect_pages true w docs
          (compute_redirects html_baseurl up0 l).computed).pages := by
  have hv : v ≠ "" := compute_value_ne_empty hm (List.mem_singleton.mpr rfl)
  have hnd := compute_nodupKeys html_baseurl up0 l
  obtain ⟨hfil, hcomp, hmem⟩ := collect_at_page w docs _ page [(k, v)] hnd hm hdoc
  have hmemb : dictMem [(k, v)] DEFAULT_PAGE = false := by
    simp [dictMem, dictGet, hk]
  have haug : augmentInner [(k, v)] = [(k, v), (DEFAULT_PAGE, v)] := by
    unfold augmentInner
    rw [if_pos ⟨rfl, hmemb, hv⟩]
    simp [dictSet, hk]
  have hcond : ¬(([(k, v)] : List (String × String)).length = 1
      ∧ dictMem [(k, v)] DEFAULT_PAGE = true) := by
    intro hcontra
    rw [hmemb] at hcontra
    exact absurd hcontra.2 (by simp)
  constructor
  · rw [hcomp, haug]
  · have htup : emittedTuple page [(k, v)]
        = (page, (CTX_FRAGMENT_REDIRECTS, build_js_object [(k, v), (DEFAULT_PAGE, v)]),
          "redirect.html") := by
      unfold emittedTuple
      rw [if_neg hcond, haug]
    rw [htup] at hmem
    exact hmem

/-- C6, witness at a concrete configuration. -/
theorem claim6_witness :
    dictGet (html_collect_pages true false []
        (compute_redirects "" "" [("old#f", "/new")]).computed).computed "old"
      = some [("f", "/new"), (DEFAULT_PAGE, "/new")]
    ∧ ("old", (CTX_FRAGMENT_REDIRECTS,
        build_js_object [("f", "/new"), (DEFAULT_PAGE, "/new")]), "redirect.html")
      ∈ (html_collect_pages true false []
          (compute_redirects "" "" [("old#f", "/new")]).computed).pages :=
  claim6_single_fragment_gets_default "" "" [("old#f", "/new")] false [] "old" "f"
    "/new" (by decide) (by decide) (by decide)

/-- C8: for a page of the computed map that is a document of the build,
`html_collect_pages` emits nothing, while `html_page_context` on that
page sets `has_fragment_redirects` to `True` and stores the page's JS
object under `fragment_redirects`; for any page name outside the
intra-page list it sets `has_fragment_redirects` to `False` and leaves
`fragment_redirects` untouched. -/
theorem claim8_intra_page_handling (w : Bool)
    (m : List (String × List (String × String))) (docs : List String)
    (page templatename : String) (inner : List (String × String))
    (ctx : List (String × CtxVal))
    (hm : dictGet m page = some inner) (hdoc : page ∈ docs) :
    (html_collect_pages true w docs m).pages.filter (fun x => x.1 == page) = []
    ∧ (html_page_context true (env_updated_intra m docs) m page templatename ctx).1
        = templatename
    ∧ dictGet (html_page_context true (env_updated_intra m docs) m page
        templatename ctx).2 CTX_HAS_FRAGMENT_REDIRECTS = some (CtxVal.bval true)
    ∧ dictGet (html_page_context true (env_updated_intra m docs) m page
        templatename ctx).2 CTX_FRAGMENT_REDIRECTS
        = some (CtxVal.sval (build_js_object inner))
    ∧ ∀ pn, pn ∉ env_updated_intra m docs →
        dictGet (html_page_context true (env_updated_intra m docs) m pn
          templatename ctx).2 CTX_HAS_FRAGMENT_REDIRECTS = some (CtxVal.bval false)
        ∧ dictGet (html_page_context true (env_updated_intra m docs) m pn
            templatename ctx).2 CTX_FRAGMENT_REDIRECTS
          = dictGet ctx CTX_FRAGMENT_REDIRECTS := by
  have hne : CTX_FRAGMENT_REDIRECTS ≠ CTX_HAS_FRAGMENT_REDIRECTS := by decide
  have hpk : page ∈ m.map Prod.fst :=
    (dictGet_isSome_iff m page).mp (by rw [hm]; rfl)
  have hintra : page ∈ env_updated_intra m docs := by
    unfold env_updated_intra
    rw [List.mem_filter]
    exact ⟨hpk, by simp [hdoc]⟩
  have hctx : html_page_context true (env_updated_intra m docs) m page
      templatename ctx
      = (templatename,
        dictSet (dictSet (dictSet ctx CTX_HAS_FRAGMENT_REDIRECTS (CtxVal.bval false))
          CTX_FRAGMENT_REDIRECTS
          (CtxVal.sval (build_js_object (dictGetD m page []))))
          CTX_HAS_FRAGMENT_REDIRECTS (CtxVal.bval true)) := by
    simp only [html_page_context, Bool.not_true]
    rw [if_neg (by simp), if_pos hintra]
  refine ⟨?_, ?_, ?_, ?_, ?_⟩
  · have hcollect : html_collect_pages true w docs m
        = (m.map Prod.fst).foldl (collectStep docs w) ⟨[], m, []⟩ := by
      simp only [html_collect_pages, Bool.not_true]
      rw [if_neg (by simp)]
    rw [hcollect, List.filter_eq_nil_iff]
    intro x hx
    have hnotdocs := loop_collect_not_in_docs docs w (m.map Prod.fst) ⟨[], m, []⟩
      (by intro y hy; simp at hy) x hx
    intro hcontra
    rw [beq_iff_eq] at hcontra
    exact hnotdocs (hcontra ▸ hdoc)
  · rw [hctx]
  · rw [hctx]
    exact dictGet_dictSet_self _ _ _
  · rw [hctx]
    show dictGet _ CTX_FRAGMENT_REDIRECTS = _
    rw [dictGet_dictSet_ne _ _ hne, dictGet_dictSet_self]
    rw [dictGetD, hm, Option.getD_some]
  · intro pn hpn
    have hctx2 : html_page_context true (env_updated_intra m docs) m pn
        templatename ctx
        = (templatename,
          dictSet ctx CTX_HAS_FRAGMENT_REDIRECTS (CtxVal.bval false)) := by
      simp only [html_page_context, Bool.not_true]
      rw [if_neg (by simp), if_neg hpn]
    rw [hctx2]
    exact ⟨dictGet_dictSet_self _ _ _, dictGet_dictSet_ne _ _ hne⟩

/-- C8, witness at a concrete build state. -/
theorem claim8_witness :
    (html_collect_pages true false ["p"] [("p", [("f", "/x")])]).pages.filter
        (fun x => x.1 == "p") = []
    ∧ dictGet (html_page_context true
        (env_updated_intra [("p", [("f", "/x")])] ["p"]) [("p", [("f", "/x")])] "p"
        "page.html" []).2 CTX_HAS_FRAGMENT_REDIRECTS = some (CtxVal.bval true)
    ∧ dictGet (html_page_context true
        (env_updated_intra [("p", [("f", "/x")])] ["p"]) [("p", [("f", "/x")])] "p"
        "page.html" []).2 CTX_FRAGMENT_REDIRECTS
        = some (CtxVal.sval (build_js_object [("f", "/x")])) := by
  have h := claim8_intra_page_handling false [("p", [("f", "/x")])] ["p"] "p"
    "page.html" [("f", "/x")] [] (by decide) (by decide)
  exact ⟨h.1, h.2.2.1, h.2.2.2.1⟩

/-- C9: with the redirects option missing/`None` or empty,
`builder_inited` records the extension as disabled, `env_updated`
returns an empty list and stores nothing, `html_collect_pages` returns
no pages and leaves its state untouched, and `html_page_context`
returns the template name with the context unchanged. -/
theorem claim9_disabled_behavior (rc : Option (List (String × String)))
    (h : rc = none ∨ rc = some [])
    (html_baseurl up0 : String) (ropt : List (String × String)) (docs : List String)
    (w : Bool) (m : List (String × List (String × String)))
    (intra : List String) (pagename templatename : String)
    (ctx : List (String × CtxVal)) :
    builder_inited_enabled rc = false
    ∧ env_updated (builder_inited_enabled rc) html_baseurl up0 ropt docs = ([], none)
    ∧ html_collect_pages (builder_inited_enabled rc) w docs m = ⟨[], m, []⟩
    ∧ html_page_context (builder_inited_enabled rc) intra m pagename templatename ctx
        = (templatename, ctx) := by
  have he : builder_inited_enabled rc = false := by
    rcases h with h | h <;> subst h <;> decide
  rw [he]
  exact ⟨rfl, rfl, rfl, rfl⟩

/-- C9, witness with the `None` configuration. -/
theorem claim9_witness :
    builder_inited_enabled none = false
    ∧ env_updated (builder_inited_enabled none) "" "" [("a", "b")] [] = ([], none)
    ∧ html_collect_pages (builder_inited_enabled none) false [] [("p", [("-", "x")])]
        = ⟨[], [("p", [("-", "x")])], []⟩
    ∧ html_page_context (builder_inited_enabled none) [] [("p", [("-", "x")])] "p"
        "t.html" [] = ("t.html", []) :=
  claim9_disabled_behavior none (Or.inl rfl) "" "" [("a", "b")] [] false
    [("p", [("-", "x")])] [] "p" "t.html" []

/-- C10: `build_js_object` returns the
`const fragment_redirects = Object.freeze({` header, one
`"key":"value"` pair per map entry in map order, comma-separated with no
trailing comma, closed by `});` — with an empty object body for the
empty map. -/
theorem claim10_build_js_object_shape (m : List (String × String)) :
    build_js_object m
      = "const fragment_redirects = Object.freeze(\x7b"
          ++ joinComma (m.map jsPairSpec) ++ "\x7d);" := by
  cases m with
  | nil => decide
  | cons e rest =>
    simp only [build_js_object]
    rw [foldl_concatPairs, concatPairs_eq_join (by simp)]
    have hpre : ("const " ++ CTX_FRAGMENT_REDIRECTS ++ " = Object.freeze(\x7b")
        = "const fragment_redirects = Object.freeze(\x7b" := by decide
    rw [hpre]
    obtain ⟨y, hy⟩ := joinComma_ends_quote (m := e :: rest) (by simp)
    rw [← String.append_assoc]
    have hx : "const fragment_redirects = Object.freeze(\x7b"
          ++ joinComma ((e :: rest).map jsPairSpec)
        = ("const fragment_redirects = Object.freeze(\x7b" ++ y) ++ "\"" := by
      rw [hy, String.append_assoc]
    rw [rstrip_append_comma hx]

end SeoRedirect
